import Mathlib

/-!
Verification of the jsonl task-processor (task_distribution.py).

The development shallowly embeds the algorithmic core of the tool:
the serial sequencer (sort_by_repo_name_and_add_serial), the weekly
batcher (create_capacity_based_batches), the capacity allocator
(distribute_tasks_by_capacity_with_serial_sequence) and the
interactive team-roster acquisition (get_team_info and the team-count
prompt in main).  Dataframes become lists of records, Python ints
become Nat/Int (Python integers are unbounded, so no wrap-around
modelling is needed), and code that can raise an exception returns
Option.
-/

namespace TaskDist

/-- An input record of the dataset.  The repo_name field may be missing
(pandas then either omits the column or stores NaN); payload stands for
all further fields, which the tool preserves verbatim and never
interprets. -/
structure Record where
  repo_name : Option String
  payload : Nat
deriving DecidableEq, Repr

/-- Lexicographic comparison of character lists by code point, the
order Python and pandas use on strings.  (Defined structurally so that
it evaluates by kernel reduction.) -/
def charListLeB : List Char → List Char → Bool
  | [], _ => true
  | _ :: _, [] => false
  | a :: as, b :: bs =>
    if a.toNat = b.toNat then charListLeB as bs else decide (a.toNat < b.toNat)

/-- String comparison by code-point lexicographic order. -/
def strLeB (a b : String) : Bool := charListLeB a.data b.data

/-- Comparison on the repo_name sort key as pandas sort_values performs
it: present values compare as strings, missing values (NaN) sort last
(na_position defaults to last). -/
def keyLeB : Option String → Option String → Bool
  | _, none => true
  | none, some _ => false
  | some a, some b => strLeB a b

/-- Propositional form of keyLeB. -/
def keyLe (a b : Option String) : Prop := keyLeB a b = true

instance : DecidableRel keyLe := fun a b =>
  inferInstanceAs (Decidable (keyLeB a b = true))

/-- A dataframe row paired with its original position in the input
(pandas rows keep their identity through sorting; reset_index only
renumbers the index). -/
abbrev Row := Nat × Record

/-- Row comparison used by sort_values: only the repo_name key is
compared. -/
def rowLe (a b : Row) : Prop := keyLe a.2.repo_name b.2.repo_name

instance : DecidableRel rowLe := fun a b =>
  inferInstanceAs (Decidable (keyLe a.2.repo_name b.2.repo_name))

/-- Result of sort_by_repo_name_and_add_serial.  The function returns a
dataframe on both paths: when the repo_name column is absent it returns
the input unchanged (after printing a warning), otherwise it returns
the rows sorted by repo_name with a serial_no column prepended.  A
sequenced row is (serial_no, original position, record). -/
inductive SeqOutput where
  | noSerial (rs : List Record)
  | withSerial (rows : List (Nat × Row))
deriving DecidableEq, Repr

/-- Embedding of sort_by_repo_name_and_add_serial.  A pandas DataFrame
built from a list of json objects has a repo_name column exactly when
at least one object carries the key, so the source guard
"repo_name not in df.columns" is the negation of that.  Sorting is
sort_values by repo_name (missing values last) and serial numbers are
1-based positions in the sorted order.  Caveat on ties: the source uses
the pandas default kind, quicksort, whose order among rows with equal
repo_name is not specified (only mergesort/stable are stable); the
insertion sort here fixes one such order, and no theorem below depends
on which order rows with equal keys come out in. -/
def sort_by_repo_name_and_add_serial (rs : List Record) : SeqOutput :=
  if rs.any (fun r => r.repo_name.isSome) then
    SeqOutput.withSerial
      (((List.insertionSort rowLe rs.enum).enum).map (fun p => (p.1 + 1, p.2)))
  else
    SeqOutput.noSerial rs

/-- Observable rows of a sequencer result: (optional serial, original
position, record), in returned order.  The noSerial branch returns the
input rows unchanged and without a serial column. -/
def SeqOutput.rows : SeqOutput → List (Option Nat × Row)
  | SeqOutput.noSerial rs => rs.enum.map (fun p => (none, p))
  | SeqOutput.withSerial l => l.map (fun t => (some t.1, t.2))

/-- A team as configured interactively: number, lead, developer count
and the derived weekly capacity (developers times 5 tasks/day times 5
days). -/
structure TeamInfo where
  team_number : Nat
  lead_name : String
  num_developers : Nat
  weekly_capacity : Nat
deriving DecidableEq, Repr

/-- A sequenced task as consumed by the batcher and the allocator: a
row of the sorted dataframe with its serial_no and repo_name. -/
structure Task where
  serial_no : Nat
  repo_name : String
  payload : Nat
deriving DecidableEq, Repr

/-- Sum of weekly_capacity over the roster. -/
def totalWeeklyCapacity (teams_info : List TeamInfo) : Nat :=
  (teams_info.map (·.weekly_capacity)).sum

/-- Embedding of math.ceil(n / c) on nonnegative ints: Python raises
ZeroDivisionError when c = 0, modelled as none. -/
def ceilOrFail (n c : Nat) : Option Nat :=
  if c = 0 then none else some ((n + c - 1) / c)

/-- Embedding of create_capacity_based_batches: weeks_needed =
ceil(total_tasks / total_capacity) (failing on zero capacity before any
batch is produced), then one slice [week*capacity, (week+1)*capacity)
per week, guarded by start_idx < total_tasks as in the source. -/
def create_capacity_based_batches (df : List Task) (teams_info : List TeamInfo) :
    Option (List (List Task)) :=
  (ceilOrFail df.length (totalWeeklyCapacity teams_info)).map (fun weeks =>
    (List.range weeks).filterMap (fun week =>
      if week * totalWeeklyCapacity teams_info < df.length then
        some ((df.drop (week * totalWeeklyCapacity teams_info)).take
          (totalWeeklyCapacity teams_info))
      else none))

/-- Order on tasks by serial_no, used by sort_values on the serial_no
column. -/
def taskLe (a b : Task) : Prop := a.serial_no ≤ b.serial_no

instance : DecidableRel taskLe := fun a b =>
  inferInstanceAs (Decidable (a.serial_no ≤ b.serial_no))

/-- Order on repository names, used by groupby which sorts its keys. -/
def nameLe (a b : String) : Prop := strLeB a b = true

instance : DecidableRel nameLe := fun a b =>
  inferInstanceAs (Decidable (strLeB a b = true))

/-- A repository group as built in the allocator: name, tasks sorted by
serial_no, and task count. -/
structure Group where
  repo_name : String
  tasks : List Task
  task_count : Nat
deriving DecidableEq, Repr

/-- Group of one repo inside a batch: the rows with that repo_name, in
serial order (group.sort_values of the source). -/
def mkGroup (batch : List Task) (name : String) : Group :=
  let g := List.insertionSort taskLe (batch.filter (fun t => t.repo_name = name))
  ⟨name, g, g.length⟩

/-- Minimum serial_no of a group (pandas Series.min of the nonempty
group). -/
def minSerialOf (g : Group) : Nat :=
  ((g.tasks.map (·.serial_no)).min?).getD 0

/-- Maximum serial_no of a group. -/
def maxSerialOf (g : Group) : Nat :=
  ((g.tasks.map (·.serial_no)).max?).getD 0

/-- Order on groups by their minimum serial number. -/
def groupLe (g h : Group) : Prop := minSerialOf g ≤ minSerialOf h

instance : DecidableRel groupLe := fun a b =>
  inferInstanceAs (Decidable (minSerialOf a ≤ minSerialOf b))

instance : IsTotal Group groupLe := ⟨fun g h => Nat.le_total (minSerialOf g) (minSerialOf h)⟩

instance : IsTrans Group groupLe := ⟨fun _ _ _ hab hbc => Nat.le_trans hab hbc⟩

/-- Embedding of the group-building prefix of
distribute_tasks_by_capacity_with_serial_sequence: groupby repo_name
(pandas sorts the keys; each group is sorted by serial_no), then a
stable sort of the group list by minimum serial_no. -/
def orderedGroups (batch : List Task) : List Group :=
  let names := List.insertionSort nameLe ((batch.map (·.repo_name)).dedup)
  List.insertionSort groupLe (names.map (mkGroup batch))

/-- Per-week mutable record of one team inside the allocator: the
static team_info dict, the accumulated task dataframe, the assigned
count, the remaining capacity (a Python int, may go negative) and the
serial_range bookkeeping. -/
structure TeamState where
  team_info : TeamInfo
  tasks : List Task
  assigned_tasks : Nat
  remaining_capacity : Int
  serial_min : Option Nat
  serial_max : Option Nat
deriving DecidableEq, Repr

/-- Fresh per-week state of one team: empty dataframe, zero assigned,
remaining_capacity = weekly_capacity, no serial range. -/
def initTeam (ti : TeamInfo) : TeamState :=
  ⟨ti, [], 0, (ti.weekly_capacity : Int), none, none⟩

/-- remaining_capacity of team i, read through an optional lookup (the
source indexes teams[i] only at indices that are in range; out of range
reads are given the harmless default 0). -/
def remAt (ts : List TeamState) (i : Nat) : Int :=
  ((ts[i]?).map (·.remaining_capacity)).getD 0

/-- Embedding of the scan "for i in range(current_team_idx + 1,
len(teams))" looking for the first team with sufficient remaining
capacity. -/
def firstFit (ts : List TeamState) (start cnt : Nat) : Option Nat :=
  (List.range' start (ts.length - start)).find?
    (fun i => decide ((cnt : Int) ≤ remAt ts i))

/-- Embedding of "max(range(len(teams)), key=lambda i:
teams[i].remaining_capacity)": Python max returns the first index
attaining the maximum, i.e. ties break towards the lowest index. -/
def argmaxRemaining (ts : List TeamState) : Nat :=
  (List.range ts.length).foldl
    (fun best i => if remAt ts best < remAt ts i then i else best) 0

/-- Target selection of the allocator loop body, returning the chosen
team index and the new current_team_idx: current team if it has
capacity (pointer unchanged); else first later team with capacity
(pointer moves there); else the team with most remaining capacity
(pointer unchanged). -/
def pickTarget (ts : List TeamState) (ptr cnt : Nat) : Nat × Nat :=
  if (cnt : Int) ≤ remAt ts ptr then (ptr, ptr)
  else
    match firstFit ts (ptr + 1) cnt with
    | some i => (i, i)
    | none => (argmaxRemaining ts, ptr)

/-- Assignment of one group to one team: append the group tasks, set
serial_range.min on first assignment, overwrite serial_range.max,
bump assigned_tasks, decrement remaining_capacity. -/
def updTeam (g : Group) (s : TeamState) : TeamState :=
  { s with
    tasks := s.tasks ++ g.tasks
    serial_min := if s.tasks.isEmpty then some (minSerialOf g) else s.serial_min
    serial_max := some (maxSerialOf g)
    assigned_tasks := s.assigned_tasks + g.task_count
    remaining_capacity := s.remaining_capacity - (g.task_count : Int) }

/-- Accumulator of the allocator loop: team states plus
current_team_idx. -/
structure AllocAcc where
  teams : List TeamState
  ptr : Nat
deriving DecidableEq, Repr

/-- One iteration of "for repo_info in repo_list". -/
def allocStep (acc : AllocAcc) (g : Group) : AllocAcc :=
  match acc.teams[(pickTarget acc.teams acc.ptr g.task_count).1]? with
  | some s =>
    ⟨acc.teams.set (pickTarget acc.teams acc.ptr g.task_count).1 (updTeam g s),
      (pickTarget acc.teams acc.ptr g.task_count).2⟩
  | none => ⟨acc.teams, (pickTarget acc.teams acc.ptr g.task_count).2⟩

/-- Embedding of distribute_tasks_by_capacity_with_serial_sequence:
build the ordered repository groups, initialize fresh team states from
the roster, run the allocation loop with the pointer starting at team
index 0, and finally sort each team task list by serial_no. -/
def distribute_tasks_by_capacity_with_serial_sequence
    (batch : List Task) (teams_info : List TeamInfo) : List TeamState :=
  let fin := (orderedGroups batch).foldl allocStep ⟨teams_info.map initTeam, 0⟩
  fin.teams.map (fun s => { s with tasks := List.insertionSort taskLe s.tasks })

/-- Embedding of the per-week loop of create_folder_structure_and_save:
every week the allocator is invoked on that week batch with the same
read-only roster, building all team states afresh. -/
def weeklyDistributions (batches : List (List Task)) (teams_info : List TeamInfo) :
    List (List TeamState) :=
  batches.map (fun b => distribute_tasks_by_capacity_with_serial_sequence b teams_info)

/-- Decision of the ASCII digit range of a character. -/
def isDigitB (c : Char) : Bool := decide (48 ≤ c.toNat) && decide (c.toNat ≤ 57)

/-- Value of an ASCII digit character. -/
def digitVal (c : Char) : Nat := c.toNat - 48

/-- Accumulating decimal parser over the remaining characters; fails on
the first non-digit. -/
def parseDigitsAux : Nat → List Char → Option Nat
  | acc, [] => some acc
  | acc, c :: cs => if isDigitB c then parseDigitsAux (acc * 10 + digitVal c) cs else none

/-- Integer parser over characters: an optional leading minus sign
(code point 45) followed by at least one decimal digit. -/
def parseIntChars : List Char → Option Int
  | [] => none
  | c :: cs =>
    if c.toNat = 45 then
      match cs with
      | [] => none
      | _ => (parseDigitsAux 0 cs).map (fun n => -(n : Int))
    else (parseDigitsAux 0 (c :: cs)).map (fun n => (n : Int))

/-- Embedding of Python int(s): some value when s parses as an integer,
none when int() raises ValueError.  The lexical grammar is the
essential fragment (optional sign, decimal digits); the claims about
interactive input depend only on the parse succeeding or failing. -/
def parseIntStr (s : String) : Option Int := parseIntChars s.data

/-- Embedding of the developer-count loop of get_team_info: keep
consuming input lines until one parses as a positive integer, which is
returned together with the rest of the stream.  Reading from an
exhausted stream raises EOFError (not caught by the except ValueError
handler), modelled as none. -/
def readPositiveInt : List String → Option (Int × List String)
  | [] => none
  | s :: rest =>
    match parseIntStr s with
    | some n => if 0 < n then some (n, rest) else readPositiveInt rest
    | none => readPositiveInt rest

/-- Outcome of the team-count prompt in main. -/
inductive TeamCountOutcome where
  | proceed (n : Int) (rest : List String)
  | errorReturn
deriving DecidableEq, Repr

/-- Embedding of the num_teams = int(input(...)) prompt of main: a
parse failure is caught by except ValueError, which prints an error and
returns from main (errorReturn); any parsed integer is accepted with no
positivity check or re-prompt; an exhausted stream raises EOFError
(none). -/
def readTeamCount : List String → Option TeamCountOutcome
  | [] => none
  | s :: rest =>
    match parseIntStr s with
    | some n => some (TeamCountOutcome.proceed n rest)
    | none => some TeamCountOutcome.errorReturn

/-- Embedding of get_team_info for teams numbered i, i+1, ... with k
teams still to configure: reads a lead name line then the
developer-count loop for each team. -/
def getTeamInfoFrom (i : Nat) : Nat → List String → Option (List TeamInfo × List String)
  | 0, inputs => some ([], inputs)
  | Nat.succ k, inputs =>
    match inputs with
    | [] => none
    | lead :: rest =>
      match readPositiveInt rest with
      | none => none
      | some (d, rest₂) =>
        match getTeamInfoFrom (i + 1) k rest₂ with
        | none => none
        | some (ts, rest₃) =>
          some (⟨i, lead, d.toNat, d.toNat * 5 * 5⟩ :: ts, rest₃)

/-- Embedding of get_team_info(num_teams): teams numbered from 1. -/
def get_team_info (num_teams : Nat) (inputs : List String) :
    Option (List TeamInfo × List String) :=
  getTeamInfoFrom 1 num_teams inputs

/-!
Spec-side rendition of the allocator target selection, written from the
words of section 4.3 of the specification so that the code can be
checked against it (claim C1): (a) the team at the current pointer if
its remaining capacity suffices, pointer unchanged; (b) else the first
team at a strictly higher index with sufficient remaining capacity,
which becomes the new pointer; (c) else the team with maximum remaining
capacity among all teams, ties broken by lowest team index, pointer
unchanged.  The bookkeeping performed on an assignment (updTeam) and
the group construction (orderedGroups) are shared with the code
embedding; only the selection logic differs.
-/

/-- Modelled from the spec: scan of the teams after the current pointer
(higher index only) for the first one with sufficient remaining
capacity. -/
def specFirstSufficient (ts : List TeamState) (ptr cnt : Nat) : Option Nat :=
  (List.range ts.length).find?
    (fun i => decide (ptr < i) && decide ((cnt : Int) ≤ remAt ts i))

/-- Modelled from the spec: the team with the maximum remaining
capacity among all teams, tie-break lowest team index — the first index
whose remaining capacity is greater or equal to every team's. -/
def specMaxCapTeam (ts : List TeamState) : Nat :=
  ((List.range ts.length).find?
    (fun i => (List.range ts.length).all (fun j => decide (remAt ts j ≤ remAt ts i)))).getD 0

/-- Modelled from the spec: the three-case target selection of
section 4.3, returning the target team and the new pointer. -/
def specPickTarget (ts : List TeamState) (ptr cnt : Nat) : Nat × Nat :=
  if (cnt : Int) ≤ remAt ts ptr then (ptr, ptr)
  else
    match specFirstSufficient ts ptr cnt with
    | some i => (i, i)
    | none => (specMaxCapTeam ts, ptr)

/-- Spec-side allocation loop body. -/
def specAllocStep (acc : AllocAcc) (g : Group) : AllocAcc :=
  match acc.teams[(specPickTarget acc.teams acc.ptr g.task_count).1]? with
  | some s =>
    ⟨acc.teams.set (specPickTarget acc.teams acc.ptr g.task_count).1 (updTeam g s),
      (specPickTarget acc.teams acc.ptr g.task_count).2⟩
  | none => ⟨acc.teams, (specPickTarget acc.teams acc.ptr g.task_count).2⟩

/-- Spec-side allocator: repository groups in ascending order of
minimum serial number, pointer starting at team index 0, fresh per-week
team states, final per-team sort by serial number. -/
def specDistribute (batch : List Task) (teams_info : List TeamInfo) : List TeamState :=
  let fin := (orderedGroups batch).foldl specAllocStep ⟨teams_info.map initTeam, 0⟩
  fin.teams.map (fun s => { s with tasks := List.insertionSort taskLe s.tasks })

/-- Shorthand for building a task of the concrete scenario. -/
def mkT (s : Nat) (r : String) : Task := ⟨s, r, 0⟩

/-- The 12 tasks of the scenario of section 8: repos A (5 tasks,
serials 1-5), B (4 tasks, serials 6-9), C (3 tasks, serials 10-12). -/
def scenarioBatch : List Task :=
  [mkT 1 "A", mkT 2 "A", mkT 3 "A", mkT 4 "A", mkT 5 "A",
   mkT 6 "B", mkT 7 "B", mkT 8 "B", mkT 9 "B",
   mkT 10 "C", mkT 11 "C", mkT 12 "C"]

/-- The two teams of the scenario, with weekly capacities 6 and 6. -/
def scenarioTeams : List TeamInfo :=
  [⟨1, "lead one", 1, 6⟩, ⟨2, "lead two", 1, 6⟩]

/-- A record with the repo_name field missing, used to exercise the
sequencer guard. -/
def missingRec : Record := ⟨none, 0⟩

/-- A record carrying repo_name, used to exercise the mixed-input
behaviour of the sequencer. -/
def namedRec : Record := ⟨some "r", 0⟩

/-- Concrete team list for exercising the allocator fallback: one team
whose remaining capacity (3) is below the incoming group size. -/
def fallbackTeams : List TeamState :=
  [initTeam ⟨1, "solo", 1, 3⟩]

/-- Concrete oversized group (5 tasks of repo A) for the fallback
witness. -/
def fallbackGroup : Group :=
  mkGroup [mkT 1 "A", mkT 2 "A", mkT 3 "A", mkT 4 "A", mkT 5 "A"] "A"

/-- Concrete five-task dataframe for the batcher witness. -/
def fiveTasks : List Task :=
  [mkT 1 "A", mkT 2 "A", mkT 3 "B", mkT 4 "B", mkT 5 "C"]

/-- Concrete one-team roster of weekly capacity 2 for the batcher
witness. -/
def capTwoRoster : List TeamInfo := [⟨1, "duo", 1, 2⟩]

/-! General list helper lemmas. -/

theorem find?_congr_pred {α : Type} {p q : α → Bool} (l : List α)
    (hpq : ∀ x ∈ l, p x = q x) : l.find? p = l.find? q := by
  induction l with
  | nil => rfl
  | cons x xs ih =>
    have hx := hpq x (List.mem_cons_self x xs)
    by_cases hp : p x = true
    · rw [List.find?_cons_of_pos _ hp, List.find?_cons_of_pos _ (hx ▸ hp)]
    · rw [List.find?_cons_of_neg _ hp, List.find?_cons_of_neg _ (hx ▸ hp)]
      exact ih (fun y hy => hpq y (List.mem_cons_of_mem _ hy))

theorem filterMap_guard_eq_map {α β : Type} (f : α → β) (c : α → Bool) :
    ∀ (l : List α), (∀ x ∈ l, c x = true) →
      (l.filterMap (fun x => if c x then some (f x) else none)) = l.map f
  | [], _ => rfl
  | x :: l, h => by
    have hx := h x (List.mem_cons_self x l)
    simp only [List.filterMap_cons, hx, if_true, List.map_cons]
    rw [filterMap_guard_eq_map f c l (fun y hy => h y (List.mem_cons_of_mem _ hy))]

theorem foldl_congr_fn {α β : Type} {f g : β → α → β} (h : ∀ b a, f b a = g b a) :
    ∀ (l : List α) (b : β), l.foldl f b = l.foldl g b
  | [], _ => rfl
  | x :: l, b => by
    rw [List.foldl_cons, List.foldl_cons, h b x]
    exact foldl_congr_fn h l (g b x)

/-! C7 — zero total capacity makes the batcher fail before any batch. -/

/-- C7: whenever the roster's total weekly capacity is zero (in
particular for an empty roster), create_capacity_based_batches fails —
math.ceil divides by the total capacity before the batching loop, so no
partial list of batches is ever produced (the result is none, not a
prefix). -/
theorem batcher_zero_capacity_fails (df : List Task) (teams_info : List TeamInfo)
    (h : totalWeeklyCapacity teams_info = 0) :
    create_capacity_based_batches df teams_info = none := by
  unfold create_capacity_based_batches ceilOrFail
  simp [h]

/-- Witness for C7 at the empty roster and a concrete dataframe. -/
theorem batcher_zero_capacity_fails_witness :
    totalWeeklyCapacity [] = 0 ∧
      create_capacity_based_batches fiveTasks [] = none :=
  ⟨rfl, batcher_zero_capacity_fails fiveTasks [] rfl⟩

/-! Arithmetic helper lemmas for the batcher. -/

theorem ceilw_eq (N C : Nat) (hC : 0 < C) :
    (N + C - 1) / C = if N % C = 0 then N / C else N / C + 1 := by
  have hdm := Nat.div_add_mod N C
  have hrC : N % C < C := Nat.mod_lt N hC
  by_cases h0 : N % C = 0
  · rw [if_pos h0]
    have hN : N + C - 1 = (C - 1) + C * (N / C) := by omega
    rw [hN, Nat.add_mul_div_left _ _ hC, Nat.div_eq_of_lt (by omega)]
    omega
  · rw [if_neg h0]
    have hm : C * (N / C + 1) = C * (N / C) + C := by ring
    have hN : N + C - 1 = (N % C - 1) + C * (N / C + 1) := by omega
    rw [hN, Nat.add_mul_div_left _ _ hC, Nat.div_eq_of_lt (by omega)]
    omega

theorem batcher_bounds (N C : Nat) (hC : 0 < C) :
    N ≤ ((N + C - 1) / C) * C ∧
      (0 < N → (((N + C - 1) / C) - 1) * C < N) ∧
      (N = 0 → (N + C - 1) / C = 0) := by
  have hw := ceilw_eq N C hC
  obtain ⟨q, hq⟩ : ∃ q, N / C = q := ⟨_, rfl⟩
  obtain ⟨r, hr⟩ : ∃ r, N % C = r := ⟨_, rfl⟩
  rw [hq, hr] at hw
  have hdm : C * q + r = N := by rw [← hq, ← hr]; exact Nat.div_add_mod N C
  have hrC : r < C := by rw [← hr]; exact Nat.mod_lt N hC
  have hqC : C * q = q * C := Nat.mul_comm _ _
  rw [hw]
  by_cases h0 : r = 0
  · rw [if_pos h0]
    refine ⟨by omega, ?_, ?_⟩
    · intro hN
      by_cases hq0 : q = 0
      · subst hq0
        omega
      · have hb := Nat.succ_mul (q - 1) C
        have h1 : q - 1 + 1 = q := by omega
        rw [Nat.succ_eq_add_one, h1] at hb
        omega
    · intro hN
      by_contra hq0
      have hCq : C ≤ q * C := Nat.le_mul_of_pos_left C (by omega)
      omega
  · rw [if_neg h0]
    have hs : (q + 1) * C = q * C + C := Nat.succ_mul q C
    have hc : q + 1 - 1 = q := rfl
    rw [hc]
    refine ⟨by omega, by omega, by omega⟩

theorem filterMap_ite_eq_map {α β : Type} (f : α → β) (p : α → Prop) [DecidablePred p] :
    ∀ (l : List α), (∀ x ∈ l, p x) →
      (l.filterMap (fun x => if p x then some (f x) else none)) = l.map f
  | [], _ => rfl
  | x :: l, h => by
    have hx := h x (List.mem_cons_self x l)
    simp only [List.filterMap_cons, if_pos hx, List.map_cons]
    rw [filterMap_ite_eq_map f p l (fun y hy => h y (List.mem_cons_of_mem _ hy))]

theorem take_add_eq {α : Type} (l : List α) (m k : Nat) :
    l.take (m + k) = l.take m ++ (l.drop m).take k := by
  calc l.take (m + k)
      = (l.take (m + k)).take m ++ (l.take (m + k)).drop m :=
        (List.take_append_drop m (l.take (m + k))).symm
    _ = l.take m ++ (l.drop m).take k := by
        rw [List.take_take, Nat.min_def, if_pos (by omega), List.take_drop]

/-- Unfolded shape of the batcher on a roster of positive capacity. -/
theorem create_batches_eq (df : List Task) (teams_info : List TeamInfo)
    (hC : 0 < totalWeeklyCapacity teams_info) :
    create_capacity_based_batches df teams_info
      = some ((List.range
            ((df.length + totalWeeklyCapacity teams_info - 1) / totalWeeklyCapacity teams_info)).map
          (fun k => (df.drop (k * totalWeeklyCapacity teams_info)).take
            (totalWeeklyCapacity teams_info))) := by
  have hC0 : totalWeeklyCapacity teams_info ≠ 0 := by omega
  obtain ⟨hle, hlt, hzero⟩ := batcher_bounds df.length (totalWeeklyCapacity teams_info) hC
  unfold create_capacity_based_batches ceilOrFail
  rw [if_neg hC0]
  simp only [Option.map_some']
  congr 1
  apply filterMap_ite_eq_map
  intro k hk
  rw [List.mem_range] at hk
  have hNpos : 0 < df.length := by
    by_contra hN
    have h0 : df.length = 0 := by omega
    rw [hzero h0] at hk
    omega
  have hk1 : k ≤ (df.length + totalWeeklyCapacity teams_info - 1) / totalWeeklyCapacity teams_info - 1 := by
    omega
  calc k * totalWeeklyCapacity teams_info
      ≤ ((df.length + totalWeeklyCapacity teams_info - 1) / totalWeeklyCapacity teams_info - 1)
          * totalWeeklyCapacity teams_info := Nat.mul_le_mul_right _ hk1
    _ < df.length := hlt hNpos

/-- Concatenating the first m slices of width C recovers the first m*C
elements. -/
theorem flatten_slices {α : Type} (l : List α) (C : Nat) :
    ∀ (m : Nat),
      ((List.range m).map (fun k => (l.drop (k * C)).take C)).flatten = l.take (m * C)
  | 0 => by simp
  | m + 1 => by
    rw [List.range_succ, List.map_append, List.flatten_append, flatten_slices l C m]
    simp only [List.map_cons, List.map_nil, List.flatten_cons, List.flatten_nil,
      List.append_nil]
    rw [← take_add_eq, Nat.succ_mul]

/-- C6: with positive total weekly capacity C over a sequenced
collection of length N, the batcher succeeds and produces exactly
ceil(N / C) = (N + C - 1) / C contiguous slices of the sequence, in
order; every slice has size C except possibly the last, whose size is
N mod C (or C when C divides N evenly), and concatenating the slices in
order restores the original sequence. -/
theorem batcher_weekly_slices (df : List Task) (teams_info : List TeamInfo)
    (hC : 0 < totalWeeklyCapacity teams_info) :
    ∃ bs, create_capacity_based_batches df teams_info = some bs ∧
      bs.length = (df.length + totalWeeklyCapacity teams_info - 1)
        / totalWeeklyCapacity teams_info ∧
      (∀ i (h : i < bs.length),
        (bs.get ⟨i, h⟩).length =
          if i + 1 < bs.length then totalWeeklyCapacity teams_info
          else if df.length % totalWeeklyCapacity teams_info = 0 then
            totalWeeklyCapacity teams_info
          else df.length % totalWeeklyCapacity teams_info) ∧
      bs.flatten = df := by
  obtain ⟨hle, hlt, hzero⟩ := batcher_bounds df.length (totalWeeklyCapacity teams_info) hC
  refine ⟨_, create_batches_eq df teams_info hC, ?_, ?_, ?_⟩
  · rw [List.length_map, List.length_range]
  · intro i h
    have hi : i < (df.length + totalWeeklyCapacity teams_info - 1)
        / totalWeeklyCapacity teams_info := by
      simpa using h
    have hNpos : 0 < df.length := by
      by_contra hN
      have h00 : df.length = 0 := by omega
      rw [hzero h00] at hi
      omega
    rw [List.get_eq_getElem]
    simp only [List.getElem_map, List.getElem_range, List.length_map, List.length_range]
    rw [List.length_take, List.length_drop]
    by_cases hmid : i + 1 < (df.length + totalWeeklyCapacity teams_info - 1) / totalWeeklyCapacity teams_info
    · rw [if_pos hmid]
      have h1 : i + 1 ≤ (df.length + totalWeeklyCapacity teams_info - 1) / totalWeeklyCapacity teams_info - 1 := by
        omega
      have h2 : (i + 1) * totalWeeklyCapacity teams_info
          ≤ ((df.length + totalWeeklyCapacity teams_info - 1) / totalWeeklyCapacity teams_info - 1)
            * totalWeeklyCapacity teams_info := Nat.mul_le_mul_right _ h1
      have h3 := hlt hNpos
      have hs := Nat.succ_mul i (totalWeeklyCapacity teams_info)
      rw [Nat.succ_eq_add_one] at hs
      omega
    · rw [if_neg hmid]
      have hieq : i + 1 = (df.length + totalWeeklyCapacity teams_info - 1)
          / totalWeeklyCapacity teams_info := by omega
      have hs := Nat.succ_mul i (totalWeeklyCapacity teams_info)
      rw [Nat.succ_eq_add_one, hieq] at hs
      have h3 := hlt hNpos
      have hi1 : ((df.length + totalWeeklyCapacity teams_info - 1) / totalWeeklyCapacity teams_info)
          - 1 = i := by omega
      rw [hi1] at h3
      have hw := ceilw_eq df.length (totalWeeklyCapacity teams_info) hC
      obtain ⟨q, hq⟩ : ∃ q, df.length / totalWeeklyCapacity teams_info = q := ⟨_, rfl⟩
      obtain ⟨r, hrr⟩ : ∃ r, df.length % totalWeeklyCapacity teams_info = r := ⟨_, rfl⟩
      rw [hq, hrr] at hw
      rw [hrr]
      have hdm : totalWeeklyCapacity teams_info * q + r = df.length := by
        rw [← hq, ← hrr]; exact Nat.div_add_mod _ _
      have hrC : r < totalWeeklyCapacity teams_info := by
        rw [← hrr]; exact Nat.mod_lt _ hC
      have hqC : totalWeeklyCapacity teams_info * q = q * totalWeeklyCapacity teams_info :=
        Nat.mul_comm _ _
      by_cases h0 : r = 0
      · rw [if_pos h0]
        rw [if_pos h0] at hw
        rw [hw] at hieq
        have hb := Nat.succ_mul (q - 1) (totalWeeklyCapacity teams_info)
        have h1 : q - 1 + 1 = q := by omega
        rw [Nat.succ_eq_add_one, h1] at hb
        have hiq : i = q - 1 := by omega
        rw [hiq]
        omega
      · rw [if_neg h0]
        rw [if_neg h0] at hw
        rw [hw] at hieq
        have hiq : i = q := by omega
        rw [hiq]
        omega
  · rw [flatten_slices]
    exact List.take_of_length_le hle

/-- Witness for C6 at five tasks and one team of capacity 2 (three
slices of sizes 2, 2, 1). -/
theorem batcher_weekly_slices_witness :
    0 < totalWeeklyCapacity capTwoRoster ∧
      ∃ bs, create_capacity_based_batches fiveTasks capTwoRoster = some bs ∧
        bs.length = (fiveTasks.length + totalWeeklyCapacity capTwoRoster - 1)
          / totalWeeklyCapacity capTwoRoster ∧
        (∀ i (h : i < bs.length),
          (bs.get ⟨i, h⟩).length =
            if i + 1 < bs.length then totalWeeklyCapacity capTwoRoster
            else if fiveTasks.length % totalWeeklyCapacity capTwoRoster = 0 then
              totalWeeklyCapacity capTwoRoster
            else fiveTasks.length % totalWeeklyCapacity capTwoRoster) ∧
        bs.flatten = fiveTasks :=
  ⟨by decide, batcher_weekly_slices fiveTasks capTwoRoster (by decide)⟩

/-! C2 — the concrete 12-task scenario. -/

/-- C2: on the scenario batch (A: 5, B: 4, C: 3 tasks, serials 1-12)
with two teams of weekly capacity 6, the allocator gives team 1 exactly
repository A (5 assigned tasks, remaining capacity 1) and team 2
exactly repositories B and C (7 assigned tasks, remaining capacity -1);
the two task lists are the first five and last seven scenario tasks, so
all 12 tasks are assigned exactly once. -/
theorem scenario_allocation :
    (distribute_tasks_by_capacity_with_serial_sequence scenarioBatch scenarioTeams).map
        (fun s => (s.assigned_tasks, s.remaining_capacity)) = [(5, 1), (7, -1)] ∧
      (distribute_tasks_by_capacity_with_serial_sequence scenarioBatch scenarioTeams).map
        (fun s => s.tasks) = [scenarioBatch.take 5, scenarioBatch.drop 5] ∧
      scenarioBatch.take 5 ++ scenarioBatch.drop 5 = scenarioBatch ∧
      scenarioBatch.length = 12 := by
  decide

/-! C3 — behaviour of the sequencer when repo_name is missing. -/

/-- C3 counterexample: the sequencer does not fail on records without
repo_name.  With a single record lacking the field it returns the input
unchanged, silently omitting the serial numbers; with a mixed input it
even proceeds and sequences every record (the missing value sorts
last).  Both outcomes contradict the claimed fatal abort. -/
theorem sequencer_missing_field_counterexample :
    sort_by_repo_name_and_add_serial [missingRec] = SeqOutput.noSerial [missingRec] ∧
      sort_by_repo_name_and_add_serial [namedRec, missingRec]
        = SeqOutput.withSerial [(1, 0, namedRec), (2, 1, missingRec)] := by
  decide

/-- C3 amended: a missing repo_name is never fatal.  When no record
carries repo_name (the dataframe then has no repo_name column), the
sequencer returns the records unchanged, without serial numbers; when
at least one record carries it, the sequencer returns a sequenced
result covering every record. -/
theorem sequencer_missing_field_amended (rs : List Record) :
    ((∀ r ∈ rs, r.repo_name = none) →
        sort_by_repo_name_and_add_serial rs = SeqOutput.noSerial rs) ∧
      ((∃ r ∈ rs, r.repo_name.isSome) →
        ∃ l, sort_by_repo_name_and_add_serial rs = SeqOutput.withSerial l ∧
          l.length = rs.length) := by
  constructor
  · intro h
    unfold sort_by_repo_name_and_add_serial
    rw [if_neg]
    simp only [List.any_eq_true, not_exists, not_and]
    intro r hr
    rw [h r hr]
    simp
  · intro h
    unfold sort_by_repo_name_and_add_serial
    rw [if_pos]
    · refine ⟨_, rfl, ?_⟩
      simp [List.length_insertionSort]
    · simp only [List.any_eq_true]
      obtain ⟨r, hr, hs⟩ := h
      exact ⟨r, hr, hs⟩

/-- Witness for C3 amended at concrete inputs for both branches. -/
theorem sequencer_missing_field_amended_witness :
    sort_by_repo_name_and_add_serial [missingRec, missingRec]
        = SeqOutput.noSerial [missingRec, missingRec] ∧
      ∃ l, sort_by_repo_name_and_add_serial [namedRec] = SeqOutput.withSerial l ∧
        l.length = 1 :=
  ⟨(sequencer_missing_field_amended [missingRec, missingRec]).1 (by decide),
    (sequencer_missing_field_amended [namedRec]).2 ⟨namedRec, by decide⟩⟩

/-! C9 — interactive input handling. -/

/-- C9 counterexample: a non-numeric team count does not re-prompt; the
except ValueError handler in main prints an error and returns,
terminating the run (the following input line "2" is never read).  A
non-positive team count is accepted outright instead of re-prompting. -/
theorem team_count_prompt_counterexample :
    readTeamCount ["abc", "2"] = some TeamCountOutcome.errorReturn ∧
      readTeamCount ["0", "x"] = some (TeamCountOutcome.proceed 0 ["x"]) := by
  decide

/-- C9 amended: only the developer-count prompt re-prompts — it skips
any number of invalid (unparsable or non-positive) lines and returns
the first positive value; the team-count prompt instead terminates the
run on a non-numeric value and accepts a non-positive one without
re-prompting. -/
theorem readPositiveInt_cons (s : String) (rest : List String) :
    readPositiveInt (s :: rest) =
      match parseIntStr s with
      | some n => if 0 < n then some (n, rest) else readPositiveInt rest
      | none => readPositiveInt rest := rfl

theorem interactive_input_amended :
    (∀ (junk : List String) (s : String) (rest : List String) (n : Int),
        (∀ j ∈ junk, ((parseIntStr j).all (fun m => decide (m ≤ 0))) = true) →
        parseIntStr s = some n → 0 < n →
        readPositiveInt (junk ++ s :: rest) = some (n, rest)) ∧
      (∀ (s : String) (rest : List String), parseIntStr s = none →
        readTeamCount (s :: rest) = some TeamCountOutcome.errorReturn) := by
  constructor
  · intro junk
    induction junk with
    | nil =>
      intro s rest n _ hs hn
      rw [List.nil_append, readPositiveInt_cons, hs]
      simp [hn]
    | cons j js ih =>
      intro s rest n hjunk hs hn
      have hj := hjunk j (List.mem_cons_self j js)
      rw [List.cons_append, readPositiveInt_cons]
      cases hpj : parseIntStr j with
      | none =>
        exact ih s rest n (fun x hx => hjunk x (List.mem_cons_of_mem _ hx)) hs hn
      | some m =>
        rw [hpj] at hj
        simp only [Option.all_some, decide_eq_true_eq] at hj
        show (if 0 < m then some (m, js ++ s :: rest)
          else readPositiveInt (js ++ s :: rest)) = some (n, rest)
        rw [if_neg (by omega)]
        exact ih s rest n (fun x hx => hjunk x (List.mem_cons_of_mem _ hx)) hs hn
  · intro s rest h
    show (match parseIntStr s with
      | some n => some (TeamCountOutcome.proceed n rest)
      | none => some TeamCountOutcome.errorReturn) = some TeamCountOutcome.errorReturn
    rw [h]

/-- Witness for C9 amended: the developer-count loop skips "x" and "0"
and returns 3; a non-numeric team count terminates. -/
theorem interactive_input_amended_witness :
    readPositiveInt ["x", "0", "3"] = some (3, []) ∧
      readTeamCount ["abc"] = some TeamCountOutcome.errorReturn :=
  ⟨interactive_input_amended.1 ["x", "0"] "3" [] 3 (by decide) (by decide) (by decide),
    interactive_input_amended.2 "abc" [] (by decide)⟩

/-! Structural lemmas about the allocation loop. -/

theorem set_self_of_getElem? {α : Type} (l : List α) (i : Nat) (x : α)
    (h : l[i]? = some x) : l.set i x = l := by
  apply List.ext_getElem?
  intro j
  by_cases hij : i = j
  · subst hij
    obtain ⟨hb, _⟩ := List.getElem?_eq_some_iff.mp h
    rw [List.getElem?_set_self hb, h]
  · rw [List.getElem?_set_ne hij]

theorem sum_map_set_of {α : Type} (f : α → Nat) :
    ∀ (l : List α) (i : Nat) (x y : α), l[i]? = some x →
      ((l.set i y).map f).sum + f x = (l.map f).sum + f y := by
  intro l
  induction l with
  | nil => intro i x y h; rw [List.getElem?_nil] at h; cases h
  | cons a l ih =>
    intro i x y h
    cases i with
    | zero =>
      rw [List.getElem?_cons_zero] at h
      cases h
      simp only [List.set_cons_zero, List.map_cons, List.sum_cons]
      omega
    | succ i =>
      rw [List.getElem?_cons_succ] at h
      simp only [List.set_cons_succ, List.map_cons, List.sum_cons]
      have := ih i x y h
      omega

theorem map_const_replicate {α β : Type} (b : β) :
    ∀ (l : List α), l.map (fun _ => b) = List.replicate l.length b
  | [] => rfl
  | x :: l => by
    simp only [List.map_cons, List.length_cons, List.replicate_succ]
    rw [map_const_replicate b l]

theorem firstFit_lt (ts : List TeamState) (start cnt i : Nat)
    (h : firstFit ts start cnt = some i) : i < ts.length ∧ start ≤ i := by
  unfold firstFit at h
  have hm := List.mem_of_find?_eq_some h
  rw [List.mem_range'] at hm
  obtain ⟨k, hk, hik⟩ := hm
  omega

theorem argmaxRemaining_lt (ts : List TeamState) (h : 0 < ts.length) :
    argmaxRemaining ts < ts.length := by
  unfold argmaxRemaining
  have key : ∀ (l : List Nat) (b : Nat), b < ts.length → (∀ j ∈ l, j < ts.length) →
      (l.foldl (fun best i => if remAt ts best < remAt ts i then i else best) b) < ts.length := by
    intro l
    induction l with
    | nil => intro b hb _; exact hb
    | cons x xs ih =>
      intro b hb hmem
      rw [List.foldl_cons]
      apply ih
      · by_cases hx : remAt ts b < remAt ts x
        · rw [if_pos hx]; exact hmem x (List.mem_cons_self x xs)
        · rw [if_neg hx]; exact hb
      · intro j hj; exact hmem j (List.mem_cons_of_mem _ hj)
  apply key
  · exact h
  · intro j hj
    rw [List.mem_range] at hj
    exact hj

theorem pickTarget_lt (ts : List TeamState) (ptr cnt : Nat)
    (hptr : ptr < ts.length) :
    (pickTarget ts ptr cnt).1 < ts.length ∧ (pickTarget ts ptr cnt).2 < ts.length := by
  unfold pickTarget
  by_cases h1 : (cnt : Int) ≤ remAt ts ptr
  · rw [if_pos h1]; exact ⟨hptr, hptr⟩
  · rw [if_neg h1]
    cases h2 : firstFit ts (ptr + 1) cnt with
    | some i =>
      have hi := firstFit_lt ts (ptr + 1) cnt i h2
      exact ⟨hi.1, hi.1⟩
    | none => exact ⟨argmaxRemaining_lt ts (by omega), hptr⟩

theorem allocStep_eq (acc : AllocAcc) (g : Group) (hptr : acc.ptr < acc.teams.length) :
    ∃ s, acc.teams[(pickTarget acc.teams acc.ptr g.task_count).1]? = some s ∧
      allocStep acc g =
        ⟨acc.teams.set (pickTarget acc.teams acc.ptr g.task_count).1 (updTeam g s),
          (pickTarget acc.teams acc.ptr g.task_count).2⟩ := by
  have ht := (pickTarget_lt acc.teams acc.ptr g.task_count hptr).1
  refine ⟨acc.teams.get ⟨(pickTarget acc.teams acc.ptr g.task_count).1, ht⟩,
    List.getElem?_eq_getElem ht, ?_⟩
  unfold allocStep
  rw [List.getElem?_eq_getElem ht]
  exact rfl

theorem allocStep_length (acc : AllocAcc) (g : Group) :
    (allocStep acc g).teams.length = acc.teams.length := by
  unfold allocStep
  cases h : acc.teams[(pickTarget acc.teams acc.ptr g.task_count).1]? <;>
    simp [h, List.length_set]

theorem allocStep_ptr_lt (acc : AllocAcc) (g : Group)
    (hptr : acc.ptr < acc.teams.length) :
    (allocStep acc g).ptr < (allocStep acc g).teams.length := by
  rw [allocStep_length]
  unfold allocStep
  have h2 := (pickTarget_lt acc.teams acc.ptr g.task_count hptr).2
  cases h : acc.teams[(pickTarget acc.teams acc.ptr g.task_count).1]? <;> simpa [h] using h2

theorem foldl_allocStep_length (gs : List Group) :
    ∀ (acc : AllocAcc), (gs.foldl allocStep acc).teams.length = acc.teams.length := by
  induction gs with
  | nil => intro acc; rfl
  | cons g gs ih =>
    intro acc
    rw [List.foldl_cons, ih, allocStep_length]

theorem foldl_allocStep_ptr_lt (gs : List Group) :
    ∀ (acc : AllocAcc), acc.ptr < acc.teams.length →
      (gs.foldl allocStep acc).ptr < (gs.foldl allocStep acc).teams.length := by
  induction gs with
  | nil => intro acc h; exact h
  | cons g gs ih =>
    intro acc h
    rw [List.foldl_cons]
    have := allocStep_ptr_lt acc g h
    exact ih _ this

/-! Tracking of per-repository task multisets through the allocation
loop. -/

theorem updTeam_filter (g : Group) (s : TeamState) (p : Task → Bool) :
    (updTeam g s).tasks.filter p = s.tasks.filter p ++ g.tasks.filter p := by
  simp [updTeam, List.filter_append]

theorem filter_nil_of_fresh (ts : List TeamState) (name : String) (t : Nat) (s : TeamState)
    (hfresh : ts.map (fun s => s.tasks.filter (fun τ => τ.repo_name = name))
      = List.replicate ts.length [])
    (hq : ts[t]? = some s) :
    s.tasks.filter (fun τ => τ.repo_name = name) = [] := by
  have h1 : (ts.map (fun s => s.tasks.filter (fun τ => τ.repo_name = name)))[t]?
      = some (s.tasks.filter (fun τ => τ.repo_name = name)) := by
    rw [List.getElem?_map, hq]
    rfl
  rw [hfresh] at h1
  have ht : t < ts.length := (List.getElem?_eq_some_iff.mp hq).1
  rw [List.getElem?_replicate_of_lt ht] at h1
  exact (Option.some_inj.mp h1).symm

theorem allocStep_filter_frame (acc : AllocAcc) (g : Group) (name : String)
    (hg : ∀ τ ∈ g.tasks, τ.repo_name ≠ name) :
    (allocStep acc g).teams.map (fun s => s.tasks.filter (fun τ => τ.repo_name = name))
      = acc.teams.map (fun s => s.tasks.filter (fun τ => τ.repo_name = name)) := by
  unfold allocStep
  cases hq : acc.teams[(pickTarget acc.teams acc.ptr g.task_count).1]? with
  | none => rfl
  | some s =>
    simp only [List.map_set]
    have hfg : g.tasks.filter (fun τ => τ.repo_name = name) = [] := by
      rw [List.filter_eq_nil_iff]
      intro τ hτ
      simpa using hg τ hτ
    rw [updTeam_filter, hfg, List.append_nil]
    apply set_self_of_getElem?
    rw [List.getElem?_map, hq]
    rfl

theorem foldl_filter_frame (gs : List Group) :
    ∀ (acc : AllocAcc) (name : String),
      (∀ g ∈ gs, ∀ τ ∈ g.tasks, τ.repo_name ≠ name) →
      (gs.foldl allocStep acc).teams.map
          (fun s => s.tasks.filter (fun τ => τ.repo_name = name))
        = acc.teams.map (fun s => s.tasks.filter (fun τ => τ.repo_name = name)) := by
  induction gs with
  | nil => intro acc name _; rfl
  | cons g gs ih =>
    intro acc name hg
    rw [List.foldl_cons, ih _ name (fun g' hgm => hg g' (List.mem_cons_of_mem _ hgm)),
      allocStep_filter_frame acc g name (hg g (List.mem_cons_self g gs))]

theorem allocStep_filter_hit (acc : AllocAcc) (g : Group)
    (hptr : acc.ptr < acc.teams.length)
    (hcoh : ∀ τ ∈ g.tasks, τ.repo_name = g.repo_name)
    (hfresh : acc.teams.map (fun s => s.tasks.filter (fun τ => τ.repo_name = g.repo_name))
      = List.replicate acc.teams.length []) :
    ∃ t, t < acc.teams.length ∧
      (allocStep acc g).teams.map
          (fun s => s.tasks.filter (fun τ => τ.repo_name = g.repo_name))
        = (List.replicate acc.teams.length []).set t g.tasks := by
  obtain ⟨s, hqs, hstep⟩ := allocStep_eq acc g hptr
  have ht := (pickTarget_lt acc.teams acc.ptr g.task_count hptr).1
  refine ⟨(pickTarget acc.teams acc.ptr g.task_count).1, ht, ?_⟩
  rw [hstep]
  simp only [List.map_set]
  rw [hfresh]
  congr 1
  rw [updTeam_filter, filter_nil_of_fresh acc.teams g.repo_name _ s hfresh hqs,
    List.nil_append]
  exact List.filter_eq_self.mpr (fun τ hτ => by simpa using hcoh τ hτ)

theorem foldl_filter_hit (gs : List Group) :
    ∀ (acc : AllocAcc) (g₀ : Group), g₀ ∈ gs →
      ((gs.map (·.repo_name)).Nodup) →
      (∀ g ∈ gs, ∀ τ ∈ g.tasks, τ.repo_name = g.repo_name) →
      (∀ g ∈ gs, acc.teams.map (fun s => s.tasks.filter (fun τ => τ.repo_name = g.repo_name))
        = List.replicate acc.teams.length []) →
      acc.ptr < acc.teams.length →
      ∃ t, t < acc.teams.length ∧
        (gs.foldl allocStep acc).teams.map
            (fun s => s.tasks.filter (fun τ => τ.repo_name = g₀.repo_name))
          = (List.replicate acc.teams.length []).set t g₀.tasks := by
  induction gs with
  | nil =>
    intro acc g₀ hmem _ _ _ _
    cases hmem
  | cons g gs ih =>
    intro acc g₀ hmem hnodup hcoh hfresh hptr
    rw [List.foldl_cons]
    have hgname : g.repo_name ∉ gs.map (·.repo_name) := by
      rw [List.map_cons, List.nodup_cons] at hnodup
      exact hnodup.1
    rcases List.mem_cons.mp hmem with h0 | h0
    · subst h0
      obtain ⟨t, htlt, hstep⟩ := allocStep_filter_hit acc g₀ hptr
        (hcoh g₀ (List.mem_cons_self g₀ gs)) (hfresh g₀ (List.mem_cons_self g₀ gs))
      refine ⟨t, htlt, ?_⟩
      rw [foldl_filter_frame gs (allocStep acc g₀) g₀.repo_name ?_, hstep]
      intro g' hg' τ hτ
      rw [hcoh g' (List.mem_cons_of_mem _ hg') τ hτ]
      intro hEq
      exact hgname (hEq ▸ List.mem_map_of_mem (·.repo_name) hg')
    · obtain ⟨s, hqs, hstep⟩ := allocStep_eq acc g hptr
      have hlen : (allocStep acc g).teams.length = acc.teams.length := allocStep_length acc g
      have hptr2 : (allocStep acc g).ptr < (allocStep acc g).teams.length :=
        allocStep_ptr_lt acc g hptr
      have ht := (pickTarget_lt acc.teams acc.ptr g.task_count hptr).1
      have hfresh2 : ∀ g' ∈ gs,
          (allocStep acc g).teams.map
              (fun s => s.tasks.filter (fun τ => τ.repo_name = g'.repo_name))
            = List.replicate (allocStep acc g).teams.length [] := by
        intro g' hg'
        rw [hlen, hstep]
        simp only [List.map_set]
        rw [hfresh g' (List.mem_cons_of_mem _ hg')]
        have hfg : g.tasks.filter (fun τ => τ.repo_name = g'.repo_name) = [] := by
          rw [List.filter_eq_nil_iff]
          intro τ hτ
          rw [hcoh g (List.mem_cons_self g gs) τ hτ]
          simp only [decide_eq_true_eq]
          intro hEq
          exact hgname (hEq ▸ List.mem_map_of_mem (·.repo_name) hg')
        rw [updTeam_filter,
          filter_nil_of_fresh acc.teams g'.repo_name _ s (hfresh g' (List.mem_cons_of_mem _ hg')) hqs,
          hfg, List.nil_append]
        exact set_self_of_getElem? _ _ _ (List.getElem?_replicate_of_lt ht)
      obtain ⟨t, htlt, hfin⟩ := ih (allocStep acc g) g₀ h0
        (by rw [List.map_cons, List.nodup_cons] at hnodup; exact hnodup.2)
        (fun g' hg' => hcoh g' (List.mem_cons_of_mem _ hg')) hfresh2 hptr2
      rw [hlen] at htlt hfin
      exact ⟨t, htlt, hfin⟩

/-! Conservation and frame invariants of the allocation loop. -/

theorem allocStep_assigned_sum (acc : AllocAcc) (g : Group)
    (hptr : acc.ptr < acc.teams.length) :
    ((allocStep acc g).teams.map (·.assigned_tasks)).sum
      = (acc.teams.map (·.assigned_tasks)).sum + g.task_count := by
  obtain ⟨s, hqs, hstep⟩ := allocStep_eq acc g hptr
  rw [hstep]
  have h : ((acc.teams.set (pickTarget acc.teams acc.ptr g.task_count).1
        (updTeam g s)).map (·.assigned_tasks)).sum + s.assigned_tasks
      = (acc.teams.map (·.assigned_tasks)).sum + (s.assigned_tasks + g.task_count) :=
    sum_map_set_of (·.assigned_tasks) acc.teams
      (pickTarget acc.teams acc.ptr g.task_count).1 s (updTeam g s) hqs
  show ((acc.teams.set (pickTarget acc.teams acc.ptr g.task_count).1
      (updTeam g s)).map (·.assigned_tasks)).sum
    = (acc.teams.map (·.assigned_tasks)).sum + g.task_count
  omega

theorem foldl_assigned_sum (gs : List Group) :
    ∀ (acc : AllocAcc), acc.ptr < acc.teams.length →
      ((gs.foldl allocStep acc).teams.map (·.assigned_tasks)).sum
        = (acc.teams.map (·.assigned_tasks)).sum + (gs.map (·.task_count)).sum := by
  induction gs with
  | nil => intro acc _; simp
  | cons g gs ih =>
    intro acc hptr
    rw [List.foldl_cons, ih _ (allocStep_ptr_lt acc g hptr),
      allocStep_assigned_sum acc g hptr, List.map_cons, List.sum_cons]
    omega

theorem allocStep_team_info (acc : AllocAcc) (g : Group) :
    (allocStep acc g).teams.map (·.team_info) = acc.teams.map (·.team_info) := by
  unfold allocStep
  cases hq : acc.teams[(pickTarget acc.teams acc.ptr g.task_count).1]? with
  | none => rfl
  | some s =>
    simp only [List.map_set]
    have : (updTeam g s).team_info = s.team_info := rfl
    rw [this]
    apply set_self_of_getElem?
    rw [List.getElem?_map, hq]
    rfl

theorem foldl_team_info (gs : List Group) :
    ∀ (acc : AllocAcc),
      (gs.foldl allocStep acc).teams.map (·.team_info) = acc.teams.map (·.team_info) := by
  induction gs with
  | nil => intro acc; rfl
  | cons g gs ih =>
    intro acc
    rw [List.foldl_cons, ih, allocStep_team_info]

theorem allocStep_capacity_inv (acc : AllocAcc) (g : Group)
    (hinv : ∀ (j : Nat) (s : TeamState), acc.teams[j]? = some s →
      s.remaining_capacity + (s.assigned_tasks : Int)
        = (s.team_info.weekly_capacity : Int)) :
    ∀ (j : Nat) (s : TeamState), (allocStep acc g).teams[j]? = some s →
      s.remaining_capacity + (s.assigned_tasks : Int)
        = (s.team_info.weekly_capacity : Int) := by
  intro j s hj
  unfold allocStep at hj
  cases hq : acc.teams[(pickTarget acc.teams acc.ptr g.task_count).1]? with
  | none =>
    rw [hq] at hj
    exact hinv j s hj
  | some s₀ =>
    rw [hq] at hj
    have hj2 : (acc.teams.set (pickTarget acc.teams acc.ptr g.task_count).1
        (updTeam g s₀))[j]? = some s := hj
    by_cases hij : (pickTarget acc.teams acc.ptr g.task_count).1 = j
    · subst hij
      have hb : (pickTarget acc.teams acc.ptr g.task_count).1 < acc.teams.length :=
        (List.getElem?_eq_some_iff.mp hq).1
      rw [List.getElem?_set_self hb] at hj2
      have hs := Option.some_inj.mp hj2
      have h0 := hinv _ s₀ hq
      rw [← hs]
      have h1 : (updTeam g s₀).remaining_capacity
          = s₀.remaining_capacity - (g.task_count : Int) := rfl
      have h2 : (updTeam g s₀).assigned_tasks = s₀.assigned_tasks + g.task_count := rfl
      have h3 : (updTeam g s₀).team_info = s₀.team_info := rfl
      rw [h1, h2, h3]
      push_cast
      omega
    · rw [List.getElem?_set_ne hij] at hj2
      exact hinv j s hj2

theorem foldl_capacity_inv (gs : List Group) :
    ∀ (acc : AllocAcc),
      (∀ (j : Nat) (s : TeamState), acc.teams[j]? = some s →
        s.remaining_capacity + (s.assigned_tasks : Int)
          = (s.team_info.weekly_capacity : Int)) →
      ∀ (j : Nat) (s : TeamState), (gs.foldl allocStep acc).teams[j]? = some s →
        s.remaining_capacity + (s.assigned_tasks : Int)
          = (s.team_info.weekly_capacity : Int) := by
  induction gs with
  | nil => intro acc h; exact h
  | cons g gs ih =>
    intro acc h
    rw [List.foldl_cons]
    exact ih _ (allocStep_capacity_inv acc g h)

/-! Facts about the repository groups built from a batch. -/

theorem mkGroup_repo_name (batch : List Task) (name : String) :
    (mkGroup batch name).repo_name = name := rfl

theorem orderedGroups_mem_iff (batch : List Task) (g : Group) :
    g ∈ orderedGroups batch ↔
      ∃ name ∈ (batch.map (·.repo_name)).dedup, g = mkGroup batch name := by
  unfold orderedGroups
  rw [List.mem_insertionSort, List.mem_map]
  constructor
  · rintro ⟨name, hn, rfl⟩
    exact ⟨name, (List.mem_insertionSort nameLe).mp hn, rfl⟩
  · rintro ⟨name, hn, rfl⟩
    exact ⟨name, (List.mem_insertionSort nameLe).mpr hn, rfl⟩

theorem orderedGroups_coherent (batch : List Task) :
    ∀ g ∈ orderedGroups batch, ∀ τ ∈ g.tasks, τ.repo_name = g.repo_name := by
  intro g hg τ hτ
  obtain ⟨name, _, rfl⟩ := (orderedGroups_mem_iff batch g).mp hg
  have hτ2 : τ ∈ batch.filter (fun t => t.repo_name = name) := by
    unfold mkGroup at hτ
    exact (List.mem_insertionSort taskLe).mp hτ
  have := List.of_mem_filter hτ2
  simpa using this

theorem orderedGroups_tasks_perm (batch : List Task) :
    ∀ g ∈ orderedGroups batch,
      g.tasks.Perm (batch.filter (fun t => t.repo_name = g.repo_name)) := by
  intro g hg
  obtain ⟨name, _, rfl⟩ := (orderedGroups_mem_iff batch g).mp hg
  exact List.perm_insertionSort taskLe _

theorem orderedGroups_names_nodup (batch : List Task) :
    ((orderedGroups batch).map (·.repo_name)).Nodup := by
  unfold orderedGroups
  have h1 : List.Perm
      ((List.insertionSort groupLe
        ((List.insertionSort nameLe ((batch.map (·.repo_name)).dedup)).map
          (mkGroup batch))).map (·.repo_name))
      (((List.insertionSort nameLe ((batch.map (·.repo_name)).dedup)).map
          (mkGroup batch)).map (·.repo_name)) :=
    (List.perm_insertionSort groupLe _).map _
  have h2 : ((List.insertionSort nameLe ((batch.map (·.repo_name)).dedup)).map
        (mkGroup batch)).map (·.repo_name)
      = List.insertionSort nameLe ((batch.map (·.repo_name)).dedup) := by
    rw [List.map_map]
    exact List.map_id'' (fun name => rfl) _
  have h3 : List.Perm (List.insertionSort nameLe ((batch.map (·.repo_name)).dedup))
      ((batch.map (·.repo_name)).dedup) := List.perm_insertionSort nameLe _
  apply h1.nodup_iff.mpr
  rw [h2]
  exact h3.nodup_iff.mpr (List.nodup_dedup _)

theorem orderedGroups_exists_of_mem (batch : List Task) (name : String)
    (h : name ∈ batch.map (·.repo_name)) :
    mkGroup batch name ∈ orderedGroups batch := by
  rw [orderedGroups_mem_iff]
  exact ⟨name, List.mem_dedup.mpr h, rfl⟩

/-! Partition of a batch by repository name. -/

theorem sum_map_add_split {α : Type} (f g : α → Nat) :
    ∀ (l : List α), (l.map (fun x => f x + g x)).sum = (l.map f).sum + (l.map g).sum
  | [] => rfl
  | x :: l => by
    simp only [List.map_cons, List.sum_cons]
    rw [sum_map_add_split f g l]
    omega

theorem sum_indicator_eq_one {α : Type} [DecidableEq α] :
    ∀ (l : List α) (a : α), l.Nodup → a ∈ l →
      (l.map (fun x => if a = x then 1 else 0)).sum = 1 := by
  intro l
  induction l with
  | nil => intro a _ h; cases h
  | cons x xs ih =>
    intro a hnd hmem
    rw [List.nodup_cons] at hnd
    simp only [List.map_cons, List.sum_cons]
    rcases List.mem_cons.mp hmem with h | h
    · subst h
      rw [if_pos rfl]
      have hz : (xs.map (fun x => if a = x then 1 else 0)).sum = 0 := by
        apply List.sum_eq_zero
        intro n hn
        rw [List.mem_map] at hn
        obtain ⟨y, hy, hval⟩ := hn
        rw [← hval, if_neg]
        intro hEq
        exact hnd.1 (hEq ▸ hy)
      omega
    · have hax : a ≠ x := by
        intro hEq
        subst hEq
        exact hnd.1 h
      rw [if_neg hax, ih a hnd.2 h]

theorem filter_partition_sum (ns : List String) (batch : List Task)
    (hnd : ns.Nodup) (hsub : ∀ τ ∈ batch, τ.repo_name ∈ ns) :
    (ns.map (fun n => (batch.filter (fun τ => τ.repo_name = n)).length)).sum
      = batch.length := by
  induction batch with
  | nil =>
    apply List.sum_eq_zero
    intro n hn
    rw [List.mem_map] at hn
    obtain ⟨y, _, hval⟩ := hn
    simp [← hval]
  | cons τ batch ih =>
    have hstep : ∀ n, ((τ :: batch).filter (fun x => x.repo_name = n)).length
        = (if τ.repo_name = n then 1 else 0)
          + (batch.filter (fun x => x.repo_name = n)).length := by
      intro n
      rw [List.filter_cons]
      by_cases h : τ.repo_name = n
      · rw [if_pos (by simpa using h), if_pos h, List.length_cons]
        omega
      · rw [if_neg (by simpa using h), if_neg h]
        omega
    rw [List.map_congr_left (fun n _ => hstep n), sum_map_add_split,
      ih (fun τ' h' => hsub τ' (List.mem_cons_of_mem _ h')),
      sum_indicator_eq_one ns τ.repo_name hnd (hsub τ (List.mem_cons_self _ _)),
      List.length_cons]
    omega

theorem orderedGroups_count_sum (batch : List Task) :
    ((orderedGroups batch).map (·.task_count)).sum = batch.length := by
  have hperm : List.Perm (orderedGroups batch)
      ((List.insertionSort nameLe ((batch.map (·.repo_name)).dedup)).map (mkGroup batch)) :=
    List.perm_insertionSort groupLe _
  rw [(hperm.map (·.task_count)).sum_eq, List.map_map]
  have h2 : ∀ n ∈ List.insertionSort nameLe ((batch.map (·.repo_name)).dedup),
      ((·.task_count) ∘ mkGroup batch) n
        = (batch.filter (fun τ => τ.repo_name = n)).length := by
    intro n _
    show (mkGroup batch n).task_count = _
    unfold mkGroup
    exact List.length_insertionSort taskLe _
  rw [List.map_congr_left h2]
  have hperm2 : List.Perm
      (List.insertionSort nameLe ((batch.map (·.repo_name)).dedup))
      ((batch.map (·.repo_name)).dedup) := List.perm_insertionSort nameLe _
  rw [(hperm2.map (fun n => (batch.filter (fun τ => τ.repo_name = n)).length)).sum_eq]
  apply filter_partition_sum
  · exact List.nodup_dedup _
  · intro τ hτ
    exact List.mem_dedup.mpr (List.mem_map_of_mem _ hτ)

/-! Shape of the allocator output. -/

theorem distribute_eq (batch : List Task) (teams_info : List TeamInfo) :
    distribute_tasks_by_capacity_with_serial_sequence batch teams_info
      = ((orderedGroups batch).foldl allocStep ⟨teams_info.map initTeam, 0⟩).teams.map
          (fun s => { s with tasks := List.insertionSort taskLe s.tasks }) := rfl

theorem distribute_assigned_sum (batch : List Task) (teams_info : List TeamInfo)
    (hne : teams_info ≠ []) :
    ((distribute_tasks_by_capacity_with_serial_sequence batch teams_info).map
      (·.assigned_tasks)).sum = batch.length := by
  rw [distribute_eq, List.map_map]
  have h1 : ((orderedGroups batch).foldl allocStep
        ⟨teams_info.map initTeam, 0⟩).teams.map
          ((·.assigned_tasks) ∘ (fun s => { s with tasks := List.insertionSort taskLe s.tasks }))
      = ((orderedGroups batch).foldl allocStep
        ⟨teams_info.map initTeam, 0⟩).teams.map (·.assigned_tasks) :=
    List.map_congr_left (fun s _ => rfl)
  rw [h1, foldl_assigned_sum (orderedGroups batch) ⟨teams_info.map initTeam, 0⟩
    (by simpa using List.length_pos.mpr hne)]
  have h2 : ((teams_info.map initTeam).map (·.assigned_tasks)).sum = 0 := by
    apply List.sum_eq_zero
    intro n hn
    rw [List.map_map, List.mem_map] at hn
    obtain ⟨ti, _, hval⟩ := hn
    exact hval.symm
  rw [h2, orderedGroups_count_sum]
  omega

theorem distribute_filter_spec (batch : List Task) (teams_info : List TeamInfo)
    (hne : teams_info ≠ []) (name : String)
    (hmem : name ∈ batch.map (·.repo_name)) :
    ∃ t st, (distribute_tasks_by_capacity_with_serial_sequence batch teams_info)[t]?
        = some st ∧
      (st.tasks.filter (fun τ => τ.repo_name = name)).Perm
        (batch.filter (fun τ => τ.repo_name = name)) ∧
      ∀ (j : Nat) (so : TeamState), j ≠ t →
        (distribute_tasks_by_capacity_with_serial_sequence batch teams_info)[j]?
          = some so →
        so.tasks.filter (fun τ => τ.repo_name = name) = [] := by
  have hlen0 : 0 < teams_info.length := List.length_pos.mpr hne
  have hg₀ := orderedGroups_exists_of_mem batch name hmem
  have hfresh : ∀ g ∈ orderedGroups batch,
      (AllocAcc.mk (teams_info.map initTeam) 0).teams.map
          (fun s => s.tasks.filter (fun τ => τ.repo_name = g.repo_name))
        = List.replicate (AllocAcc.mk (teams_info.map initTeam) 0).teams.length [] := by
    intro g _
    show (teams_info.map initTeam).map
        (fun s => s.tasks.filter (fun τ => τ.repo_name = g.repo_name))
      = List.replicate (teams_info.map initTeam).length []
    rw [List.map_map, List.length_map]
    have : ∀ ti ∈ teams_info,
        ((fun s => s.tasks.filter (fun τ => τ.repo_name = g.repo_name)) ∘ initTeam) ti
          = ([] : List Task) := fun ti _ => rfl
    rw [List.map_congr_left this, map_const_replicate]
  obtain ⟨t, htlt, hfin⟩ := foldl_filter_hit (orderedGroups batch)
    (AllocAcc.mk (teams_info.map initTeam) 0) (mkGroup batch name) hg₀
    (orderedGroups_names_nodup batch) (orderedGroups_coherent batch) hfresh
    (by simpa using hlen0)
  have hlen : (AllocAcc.mk (teams_info.map initTeam) 0).teams.length = teams_info.length := by
    simp
  rw [hlen] at htlt hfin
  have hflen : ((orderedGroups batch).foldl allocStep
      (AllocAcc.mk (teams_info.map initTeam) 0)).teams.length = teams_info.length := by
    rw [foldl_allocStep_length]
    simp
  -- the team state at index t in the fold result
  have htfold : t < ((orderedGroups batch).foldl allocStep
      (AllocAcc.mk (teams_info.map initTeam) 0)).teams.length := by omega
  set fin := (orderedGroups batch).foldl allocStep
    (AllocAcc.mk (teams_info.map initTeam) 0) with hfindef
  have hst0 : fin.teams[t]? = some (fin.teams.get ⟨t, htfold⟩) := List.getElem?_eq_getElem htfold
  have hmapt : (fin.teams.map
      (fun s => s.tasks.filter (fun τ => τ.repo_name = (mkGroup batch name).repo_name)))[t]?
      = some ((fin.teams.get ⟨t, htfold⟩).tasks.filter (fun τ => τ.repo_name = name)) := by
    rw [List.getElem?_map, hst0]
    rfl
  rw [hfin] at hmapt
  have hrept : ((List.replicate teams_info.length ([] : List Task)).set t
      (mkGroup batch name).tasks)[t]? = some (mkGroup batch name).tasks := by
    rw [List.getElem?_set_self]
    rw [List.length_replicate]
    exact htlt
  rw [hrept] at hmapt
  have hteq : (fin.teams.get ⟨t, htfold⟩).tasks.filter (fun τ => τ.repo_name = name)
      = (mkGroup batch name).tasks := (Option.some_inj.mp hmapt).symm
  refine ⟨t, { fin.teams.get ⟨t, htfold⟩ with
      tasks := List.insertionSort taskLe (fin.teams.get ⟨t, htfold⟩).tasks }, ?_, ?_, ?_⟩
  · rw [distribute_eq, ← hfindef, List.getElem?_map, hst0]
    rfl
  · have hp1 : List.Perm
        ((List.insertionSort taskLe (fin.teams.get ⟨t, htfold⟩).tasks).filter
          (fun τ => τ.repo_name = name))
        ((fin.teams.get ⟨t, htfold⟩).tasks.filter (fun τ => τ.repo_name = name)) :=
      (List.perm_insertionSort taskLe _).filter _
    rw [hteq] at hp1
    have hp2 : List.Perm (mkGroup batch name).tasks
        (batch.filter (fun τ => τ.repo_name = name)) := by
      have := orderedGroups_tasks_perm batch (mkGroup batch name) hg₀
      simpa using this
    exact hp1.trans hp2
  · intro j so hjt hj
    rw [distribute_eq, ← hfindef, List.getElem?_map] at hj
    cases hjq : fin.teams[j]? with
    | none => rw [hjq] at hj; cases hj
    | some so0 =>
      rw [hjq] at hj
      have hso : so = { so0 with tasks := List.insertionSort taskLe so0.tasks } :=
        (Option.some_inj.mp hj).symm
      have hjlt : j < teams_info.length := by
        have := (List.getElem?_eq_some_iff.mp hjq).1
        omega
      have hmapj : (fin.teams.map
          (fun s => s.tasks.filter (fun τ => τ.repo_name = (mkGroup batch name).repo_name)))[j]?
          = some (so0.tasks.filter (fun τ => τ.repo_name = name)) := by
        rw [List.getElem?_map, hjq]
        rfl
      rw [hfin] at hmapj
      have hrepj : ((List.replicate teams_info.length ([] : List Task)).set t
          (mkGroup batch name).tasks)[j]? = some ([] : List Task) := by
        rw [List.getElem?_set_ne (fun h => hjt h.symm), List.getElem?_replicate_of_lt hjlt]
      rw [hrepj] at hmapj
      have hjeq : so0.tasks.filter (fun τ => τ.repo_name = name) = [] :=
        (Option.some_inj.mp hmapj).symm
      rw [hso]
      have hp : List.Perm
          ((List.insertionSort taskLe so0.tasks).filter (fun τ => τ.repo_name = name))
          (so0.tasks.filter (fun τ => τ.repo_name = name)) :=
        (List.perm_insertionSort taskLe _).filter _
      rw [hjeq] at hp
      exact hp.eq_nil

/-! Equivalence of the code allocator with the spec-side allocator. -/

theorem firstFit_eq_spec (ts : List TeamState) (ptr cnt : Nat) :
    firstFit ts (ptr + 1) cnt = specFirstSufficient ts ptr cnt := by
  unfold firstFit specFirstSufficient
  by_cases hp : ptr + 1 ≤ ts.length
  · have hsplit : List.range ts.length
        = List.range' 0 (ptr + 1) ++ List.range' (ptr + 1) (ts.length - (ptr + 1)) := by
      rw [List.range_eq_range']
      have h := List.range'_append_1 0 (ptr + 1) (ts.length - (ptr + 1))
      rw [Nat.zero_add] at h
      have h2 : ts.length - (ptr + 1) + (ptr + 1) = ts.length := by omega
      rw [h2] at h
      exact h.symm
    rw [hsplit, List.find?_append]
    have h1 : (List.range' 0 (ptr + 1)).find?
        (fun i => decide (ptr < i) && decide ((cnt : Int) ≤ remAt ts i)) = none := by
      rw [List.find?_eq_none]
      intro x hx
      rw [List.mem_range'] at hx
      obtain ⟨k, hk, hxe⟩ := hx
      intro hcontra
      rw [Bool.and_eq_true] at hcontra
      have := of_decide_eq_true hcontra.1
      omega
    rw [h1, Option.none_or]
    symm
    apply find?_congr_pred
    intro x hx
    rw [List.mem_range'] at hx
    obtain ⟨k, hk, hxe⟩ := hx
    have hgt : ptr < x := by omega
    rw [decide_eq_true hgt, Bool.true_and]
  · have hz : ts.length - (ptr + 1) = 0 := by omega
    rw [hz]
    have hl : List.range' (ptr + 1) 0 = [] := List.range'_zero
    rw [hl, List.find?_nil]
    symm
    rw [List.find?_eq_none]
    intro x hx
    rw [List.mem_range] at hx
    intro hcontra
    rw [Bool.and_eq_true] at hcontra
    have := of_decide_eq_true hcontra.1
    omega

theorem argmax_fold_firstmax (ts : List TeamState) :
    ∀ (m s b : Nat), b < s →
      (∀ j, j < s → remAt ts j ≤ remAt ts b) →
      (∀ j, j < b → remAt ts j < remAt ts b) →
      ((List.range' s m).foldl
          (fun best i => if remAt ts best < remAt ts i then i else best) b) < s + m ∧
      (∀ j, j < s + m → remAt ts j ≤ remAt ts ((List.range' s m).foldl
          (fun best i => if remAt ts best < remAt ts i then i else best) b)) ∧
      (∀ j, j < ((List.range' s m).foldl
          (fun best i => if remAt ts best < remAt ts i then i else best) b) →
        remAt ts j < remAt ts ((List.range' s m).foldl
          (fun best i => if remAt ts best < remAt ts i then i else best) b)) := by
  intro m
  induction m with
  | zero =>
    intro s b h1 h2 h3
    refine ⟨?_, ?_, ?_⟩
    · show b < s + 0
      omega
    · intro j hj
      exact h2 j (by omega)
    · exact h3
  | succ k ih =>
    intro s b h1 h2 h3
    rw [List.range'_succ, List.foldl_cons]
    by_cases hbs : remAt ts b < remAt ts s
    · rw [if_pos hbs]
      have hres := ih (s + 1) s (by omega)
        (fun j hj => by
          rcases Nat.lt_or_ge j s with hjs | hjs
          · exact le_of_lt (lt_of_le_of_lt (h2 j hjs) hbs)
          · have : j = s := by omega
            rw [this])
        (fun j hj => lt_of_le_of_lt (h2 j hj) hbs)
      refine ⟨by have := hres.1; omega, fun j hj => hres.2.1 j (by omega), hres.2.2⟩
    · rw [if_neg hbs]
      have hres := ih (s + 1) b (by omega)
        (fun j hj => by
          rcases Nat.lt_or_ge j s with hjs | hjs
          · exact h2 j hjs
          · have : j = s := by omega
            rw [this]
            omega)
        h3
      refine ⟨by have := hres.1; omega, fun j hj => hres.2.1 j (by omega), hres.2.2⟩

theorem argmax_eq_spec (ts : List TeamState) :
    argmaxRemaining ts = specMaxCapTeam ts := by
  unfold argmaxRemaining specMaxCapTeam
  cases hn : ts.length with
  | zero => rfl
  | succ m =>
    have hr : List.range (m + 1) = 0 :: List.range' 1 m := by
      rw [List.range_eq_range', List.range'_succ]
    rw [hr, List.foldl_cons, if_neg (lt_irrefl _)]
    obtain ⟨hb, hmax, hstrict⟩ := argmax_fold_firstmax ts m 1 0 (by omega)
      (fun j hj => by
        have hj0 : j = 0 := by omega
        rw [hj0])
      (fun j hj => by omega)
    have hfind : ((0 :: List.range' 1 m).find?
        (fun i => (0 :: List.range' 1 m).all (fun j => decide (remAt ts j ≤ remAt ts i))))
        = some ((List.range' 1 m).foldl
            (fun best i => if remAt ts best < remAt ts i then i else best) 0) := by
      rw [← hr, List.find?_eq_some]
      constructor
      · rw [List.all_eq_true]
        intro j hj
        rw [List.mem_range] at hj
        exact decide_eq_true (hmax j (by omega))
      · refine ⟨List.range ((List.range' 1 m).foldl
            (fun best i => if remAt ts best < remAt ts i then i else best) 0),
          List.range' ((List.range' 1 m).foldl
            (fun best i => if remAt ts best < remAt ts i then i else best) 0 + 1)
            (m - (List.range' 1 m).foldl
              (fun best i => if remAt ts best < remAt ts i then i else best) 0), ?_, ?_⟩
        · rw [List.range_eq_range']
          have h1 := List.range'_append_1 0
            ((List.range' 1 m).foldl
              (fun best i => if remAt ts best < remAt ts i then i else best) 0)
            (m + 1 - (List.range' 1 m).foldl
              (fun best i => if remAt ts best < remAt ts i then i else best) 0)
          rw [Nat.zero_add] at h1
          have h2 : m + 1 - (List.range' 1 m).foldl
                (fun best i => if remAt ts best < remAt ts i then i else best) 0
              + (List.range' 1 m).foldl
                (fun best i => if remAt ts best < remAt ts i then i else best) 0
              = m + 1 := by omega
          rw [h2] at h1
          rw [← h1, List.range_eq_range']
          congr 1
          have h3 : m + 1 - (List.range' 1 m).foldl
              (fun best i => if remAt ts best < remAt ts i then i else best) 0
              = (m - (List.range' 1 m).foldl
                (fun best i => if remAt ts best < remAt ts i then i else best) 0) + 1 := by
            omega
          rw [h3, List.range'_succ]
        · intro a ha
          rw [List.mem_range] at ha
          have hnall : ¬ ((List.range (m + 1)).all
              (fun j => decide (remAt ts j ≤ remAt ts a)) = true) := by
            rw [List.all_eq_true]
            intro hall2
            have hra := hall2 ((List.range' 1 m).foldl
              (fun best i => if remAt ts best < remAt ts i then i else best) 0)
              (by rw [List.mem_range]; omega)
            have h5 := of_decide_eq_true hra
            have h6 := hstrict a ha
            omega
          cases hx : (List.range (m + 1)).all (fun j => decide (remAt ts j ≤ remAt ts a)) with
          | true => exact absurd hx hnall
          | false => rfl
    rw [hfind]
    rfl

theorem pickTarget_eq_spec (ts : List TeamState) (ptr cnt : Nat) :
    pickTarget ts ptr cnt = specPickTarget ts ptr cnt := by
  unfold pickTarget specPickTarget
  rw [firstFit_eq_spec, argmax_eq_spec]

theorem allocStep_eq_spec (acc : AllocAcc) (g : Group) :
    allocStep acc g = specAllocStep acc g := by
  unfold allocStep specAllocStep
  rw [pickTarget_eq_spec]

/-! C1 — the allocator follows the documented greedy rules. -/

/-- C1: the allocator processes the repository groups of a batch in
ascending order of minimum serial number (the group list is sorted by
that key), and its behaviour coincides with the spec-side allocator
written from the words of section 4.3: pointer starting at team index
0, rule (a) current team when it has remaining capacity (pointer
unchanged), rule (b) first strictly-later team with sufficient
remaining capacity (pointer moves there), rule (c) the team with
maximum remaining capacity over all teams with ties broken by lowest
index (pointer unchanged), its remaining_capacity decremented without
clipping, so it may become negative. -/
theorem allocator_matches_spec (batch : List Task) (teams_info : List TeamInfo) :
    List.Sorted groupLe (orderedGroups batch) ∧
      distribute_tasks_by_capacity_with_serial_sequence batch teams_info
        = specDistribute batch teams_info := by
  constructor
  · unfold orderedGroups
    exact List.sorted_insertionSort groupLe _
  · unfold distribute_tasks_by_capacity_with_serial_sequence specDistribute
    rw [foldl_congr_fn allocStep_eq_spec]

/-! C5 — repository atomicity and conservation. -/

/-- C5: for every weekly batch (and any nonempty roster), the sum of
assigned_tasks over the allocator output equals the batch size, and
every repository present in the batch lands with exactly one team: some
team holds exactly the batch tasks of that repository (as a multiset)
and every other team holds none of them.  Summed over the weekly
batches produced by the batcher, the assigned_tasks counts account for
every one of the N input tasks exactly once. -/
theorem repository_atomicity_and_conservation (teams_info : List TeamInfo)
    (hne : teams_info ≠ []) :
    (∀ batch : List Task,
      ((distribute_tasks_by_capacity_with_serial_sequence batch teams_info).map
          (·.assigned_tasks)).sum = batch.length ∧
      (∀ name : String, batch.filter (fun τ => τ.repo_name = name) ≠ [] →
        ∃ t st,
          (distribute_tasks_by_capacity_with_serial_sequence batch teams_info)[t]?
            = some st ∧
          (st.tasks.filter (fun τ => τ.repo_name = name)).Perm
            (batch.filter (fun τ => τ.repo_name = name)) ∧
          ∀ (j : Nat) (so : TeamState), j ≠ t →
            (distribute_tasks_by_capacity_with_serial_sequence batch teams_info)[j]?
              = some so →
            so.tasks.filter (fun τ => τ.repo_name = name) = [])) ∧
    (∀ (df : List Task) (bs : List (List Task)),
      create_capacity_based_batches df teams_info = some bs →
      (bs.map (fun b =>
        ((distribute_tasks_by_capacity_with_serial_sequence b teams_info).map
          (·.assigned_tasks)).sum)).sum = df.length) := by
  constructor
  · intro batch
    refine ⟨distribute_assigned_sum batch teams_info hne, ?_⟩
    intro name hf
    obtain ⟨τ, hτ⟩ := List.exists_mem_of_ne_nil _ hf
    rw [List.mem_filter] at hτ
    have hname : τ.repo_name = name := by simpa using hτ.2
    exact distribute_filter_spec batch teams_info hne name
      (hname ▸ List.mem_map_of_mem (·.repo_name) hτ.1)
  · intro df bs hbs
    have hC : 0 < totalWeeklyCapacity teams_info := by
      by_contra h0
      rw [batcher_zero_capacity_fails df teams_info (by omega)] at hbs
      cases hbs
    rw [create_batches_eq df teams_info hC] at hbs
    have hbs2 := Option.some_inj.mp hbs
    obtain ⟨hle, _, _⟩ := batcher_bounds df.length (totalWeeklyCapacity teams_info) hC
    have hflat : bs.flatten = df := by
      rw [← hbs2, flatten_slices]
      exact List.take_of_length_le hle
    have hsum : ∀ b ∈ bs,
        ((distribute_tasks_by_capacity_with_serial_sequence b teams_info).map
          (·.assigned_tasks)).sum = b.length :=
      fun b _ => distribute_assigned_sum b teams_info hne
    rw [List.map_congr_left hsum]
    have hlf := List.length_flatten bs
    rw [hflat] at hlf
    simpa using hlf.symm

/-- Witness for C5 at the concrete scenario inputs. -/
theorem repository_atomicity_and_conservation_witness :
    scenarioTeams ≠ [] ∧
      ((distribute_tasks_by_capacity_with_serial_sequence scenarioBatch scenarioTeams).map
        (·.assigned_tasks)).sum = scenarioBatch.length :=
  ⟨by decide,
    ((repository_atomicity_and_conservation scenarioTeams (by decide)).1 scenarioBatch).1⟩

/-! C8 — the allocator never touches the roster and works on fresh
per-week state. -/

/-- C8: the allocator carries the roster entries through unchanged (the
team_info of the output states is exactly the input roster list), every
output state satisfies remaining_capacity = weekly_capacity -
assigned_tasks (so the per-week state starts from the full
weekly_capacity and is only reduced by this week's own assignments),
and the per-week loop feeds every week the same roster, each week's
distribution depending only on its own batch — capacities never carry
over between weeks. -/
theorem roster_unchanged_and_fresh_state (batch : List Task) (teams_info : List TeamInfo) :
    ((distribute_tasks_by_capacity_with_serial_sequence batch teams_info).map
        (·.team_info) = teams_info) ∧
      (∀ (j : Nat) (s : TeamState),
        (distribute_tasks_by_capacity_with_serial_sequence batch teams_info)[j]? = some s →
        s.remaining_capacity
          = (s.team_info.weekly_capacity : Int) - (s.assigned_tasks : Int)) ∧
      (∀ (batches : List (List Task)) (k : Nat) (b : List Task),
        batches[k]? = some b →
        (weeklyDistributions batches teams_info)[k]?
          = some (distribute_tasks_by_capacity_with_serial_sequence b teams_info)) := by
  refine ⟨?_, ?_, ?_⟩
  · rw [distribute_eq, List.map_map]
    have h1 : ((orderedGroups batch).foldl allocStep
          ⟨teams_info.map initTeam, 0⟩).teams.map
            ((·.team_info) ∘ (fun s => { s with tasks := List.insertionSort taskLe s.tasks }))
        = ((orderedGroups batch).foldl allocStep
          ⟨teams_info.map initTeam, 0⟩).teams.map (·.team_info) :=
      List.map_congr_left (fun s _ => rfl)
    rw [h1, foldl_team_info, List.map_map]
    exact List.map_id'' (fun ti => rfl) _
  · intro j s hj
    rw [distribute_eq, List.getElem?_map] at hj
    cases hq : ((orderedGroups batch).foldl allocStep
        ⟨teams_info.map initTeam, 0⟩).teams[j]? with
    | none => rw [hq] at hj; cases hj
    | some s0 =>
      rw [hq] at hj
      have hs : s = { s0 with tasks := List.insertionSort taskLe s0.tasks } :=
        (Option.some_inj.mp hj).symm
      have hinit : ∀ (j' : Nat) (s' : TeamState),
          (AllocAcc.mk (teams_info.map initTeam) 0).teams[j']? = some s' →
          s'.remaining_capacity + (s'.assigned_tasks : Int)
            = (s'.team_info.weekly_capacity : Int) := by
        intro j' s' hj'
        have hj2 : (teams_info.map initTeam)[j']? = some s' := hj'
        rw [List.getElem?_map] at hj2
        cases hq' : teams_info[j']? with
        | none => rw [hq'] at hj2; cases hj2
        | some ti =>
          rw [hq'] at hj2
          have hsi : s' = initTeam ti := (Option.some_inj.mp hj2).symm
          rw [hsi]
          show (ti.weekly_capacity : Int) + ((0 : Nat) : Int) = (ti.weekly_capacity : Int)
          simp
      have hinv := foldl_capacity_inv (orderedGroups batch)
        (AllocAcc.mk (teams_info.map initTeam) 0) hinit j s0 hq
      rw [hs]
      show s0.remaining_capacity
        = (s0.team_info.weekly_capacity : Int) - (s0.assigned_tasks : Int)
      omega
  · intro batches k b hk
    unfold weeklyDistributions
    rw [List.getElem?_map, hk]
    rfl

/-- Witness for C8: the roster is returned verbatim on the scenario and
week 1 of a one-batch schedule is exactly the allocation of that
batch. -/
theorem roster_unchanged_and_fresh_state_witness :
    (distribute_tasks_by_capacity_with_serial_sequence scenarioBatch scenarioTeams).map
        (·.team_info) = scenarioTeams ∧
      (weeklyDistributions [scenarioBatch] scenarioTeams)[0]?
        = some (distribute_tasks_by_capacity_with_serial_sequence scenarioBatch scenarioTeams) :=
  ⟨(roster_unchanged_and_fresh_state scenarioBatch scenarioTeams).1,
    (roster_unchanged_and_fresh_state scenarioBatch scenarioTeams).2.2
      [scenarioBatch] 0 scenarioBatch rfl⟩

/-! C10 — the overflow fallback never moves the pointer. -/

/-- C10: whenever a group is assigned through the overflow fallback
(the pointed-to team lacks capacity and no later team has enough), the
allocation step leaves current_team_idx unchanged and sends the group
to the team with maximum remaining capacity — so the next group is
again offered first to the team the pointer was on, and teams before
the pointer can receive groups only through this fallback. -/
theorem fallback_preserves_pointer (acc : AllocAcc) (g : Group)
    (h1 : ¬ ((g.task_count : Int) ≤ remAt acc.teams acc.ptr))
    (h2 : firstFit acc.teams (acc.ptr + 1) g.task_count = none) :
    (allocStep acc g).ptr = acc.ptr ∧
      (pickTarget acc.teams acc.ptr g.task_count).1 = argmaxRemaining acc.teams := by
  have hp : pickTarget acc.teams acc.ptr g.task_count
      = (argmaxRemaining acc.teams, acc.ptr) := by
    unfold pickTarget
    rw [if_neg h1, h2]
  constructor
  · unfold allocStep
    rw [hp]
    cases hq : acc.teams[argmaxRemaining acc.teams]? <;> simp only [hq]
  · rw [hp]

/-- Witness for C10: a single team of capacity 3 facing a five-task
group triggers the fallback and keeps the pointer at 0. -/
theorem fallback_preserves_pointer_witness :
    (¬ ((fallbackGroup.task_count : Int) ≤ remAt fallbackTeams 0)) ∧
      firstFit fallbackTeams (0 + 1) fallbackGroup.task_count = none ∧
      (allocStep ⟨fallbackTeams, 0⟩ fallbackGroup).ptr = 0 :=
  ⟨by decide, by decide,
    (fallback_preserves_pointer ⟨fallbackTeams, 0⟩ fallbackGroup (by decide) (by decide)).1⟩

end TaskDist
